import Mathlib

set_option maxRecDepth 100000

/-!
Shallow embedding of `src/count_unique_ipv6.cc`, a two-phase external-memory
counter of distinct IPv6 addresses: a manual textual parser that normalizes
each line to a 128-bit key (two 64-bit halves, modelled as a pair of `Nat`
with explicit reductions where the machine arithmetic wraps), a 256-way
partitioning of keys by the top byte of the high half, and a per-partition
sort/adjacent-unique count whose partial counts are summed.
-/

/-- Embedding of `hexDigitToInt` (lines 39-44): hex digit value, `-1` becomes `none`. -/
def hexDigitToInt (c : Char) : Option Nat :=
  if '0' ≤ c ∧ c ≤ '9' then some (c.toNat - '0'.toNat)
  else if 'a' ≤ c ∧ c ≤ 'f' then some (c.toNat - 'a'.toNat + 10)
  else if 'A' ≤ c ∧ c ≤ 'F' then some (c.toNat - 'A'.toNat + 10)
  else none

/-- Embedding of C `isspace` as used at lines 57, 67 and 94 (ASCII whitespace). -/
def isSpaceC (c : Char) : Bool :=
  c = ' ' || c = '\t' || c = '\n' || c = '\x0b' || c = '\x0c' || c = '\r'

/-- Embedding of lines 90-92: if the group had digits, store the accumulated
value truncated to `uint16_t` (`% 65536`) at slot `current_part` and advance
`current_part`. -/
def pushPart (parts : List Nat) (cp : Nat) (val : Nat) (hd : Bool) : List Nat × Nat :=
  if hd then (parts.set cp (val % 65536), cp + 1) else (parts, cp)

/-- Embedding of the scanning loop of `parseIPv6` (lines 77-106).  `parts` is
the 8-slot `uint16_t` array (entries as `Nat`), `cp` is `current_part`, `dci`
is `double_colon_index` (`none` for `-1`), `val`/`hd` are the running group
accumulator (a `uint32_t`, hence `% 4294967296`) and `has_digits` flag of the
inner digit loop.  Returns `none` for `return false`, otherwise the state at
normal loop exit. -/
def scanGroup (parts : List Nat) (cp : Nat) (dci : Option Nat) (val : Nat) (hd : Bool) :
    List Char → Option (List Nat × Nat × Option Nat)
  | [] => some ((pushPart parts cp val hd).1, (pushPart parts cp val hd).2, dci)
  | c :: rest =>
    match hexDigitToInt c with
    | some d => scanGroup parts cp dci ((val * 16 + d) % 4294967296) true rest
    | none =>
      let parts2 := (pushPart parts cp val hd).1
      let cp2 := (pushPart parts cp val hd).2
      if isSpaceC c then some (parts2, cp2, dci)
      else if c = ':' then
        match rest with
        | [] => some (parts2, cp2, dci)
        | c2 :: rest2 =>
          if c2 = ':' then
            match dci with
            | some _ => none
            | none =>
              if rest2.isEmpty || 8 ≤ cp2 then some (parts2, cp2, some cp2)
              else scanGroup parts2 cp2 (some cp2) 0 false rest2
          else
            if 8 ≤ cp2 then some (parts2, cp2, dci)
            else scanGroup parts2 cp2 dci 0 false (c2 :: rest2)
      else none

/-- Embedding of the `::` expansion loop (lines 114-117): iteration `k` copies
`parts[parts_parsed - 1 - k]` into `parts[7 - k]` and zero-fills the source
slot, for `k = 0 .. parts_to_shift - 1` (the last argument counts the
remaining iterations). -/
def expandLoop (pp : Nat) (parts : List Nat) (k : Nat) : Nat → List Nat
  | 0 => parts
  | r + 1 =>
    let v := parts.getD (pp - 1 - k) 0
    expandLoop pp ((parts.set (7 - k) v).set (pp - 1 - k) 0) (k + 1) r

/-- Embedding of the packing at lines 123-126: eight 16-bit groups packed
big-endian into the two 64-bit halves, most-significant group first. -/
def packParts (p : List Nat) : Nat × Nat :=
  ((p.getD 0 0) <<< 48 ||| (p.getD 1 0) <<< 32 ||| (p.getD 2 0) <<< 16 ||| p.getD 3 0,
   (p.getD 4 0) <<< 48 ||| (p.getD 5 0) <<< 32 ||| (p.getD 6 0) <<< 16 ||| p.getD 7 0)

/-- The initial all-zero `uint16_t parts[8]` array (line 49). -/
def parts0 : List Nat := List.replicate 8 0

/-- Embedding of lines 108-128: `::` expansion (if a marker was seen),
completeness check otherwise, then packing. -/
def finish (r : Option (List Nat × Nat × Option Nat)) : Option (Nat × Nat) :=
  match r with
  | none => none
  | some (parts, cp, dci) =>
    match dci with
    | some d => some (packParts (expandLoop cp parts 0 (cp - d)))
    | none => if cp = 8 then some (packParts parts) else none

/-- Embedding of `parseIPv6` (lines 48-129) on a line given as a character
list: leading-whitespace skip, the special handling of a leading `:`
(lines 62-75), the scanning loop, expansion and packing.  `none` models
`return false`. -/
def parseIPv6 (line : List Char) : Option (Nat × Nat) :=
  match line.dropWhile isSpaceC with
  | [] => none
  | c :: cs =>
    if c = ':' then
      match cs with
      | [] => none
      | c2 :: cs2 =>
        if c2 = ':' then
          match cs2 with
          | [] => some (0, 0)
          | c3 :: _ =>
            if isSpaceC c3 then some (0, 0)
            else finish (scanGroup parts0 0 (some 0) 0 false cs2)
        else none
    else finish (scanGroup parts0 0 none 0 false (c :: cs))

/-- Convenience: a source line as a character list. -/
def toL (s : String) : List Char := s.data

/-- Embedding of line 252: a trailing carriage return is removed before parsing. -/
def stripCR (l : List Char) : List Char :=
  if l.getLast? = some '\r' then l.dropLast else l

/-- Embedding of lines 248-258 for one line of the input file: empty lines are
skipped, a trailing CR is stripped, and the line yields a key exactly when
`parseIPv6` accepts it. -/
def lineKey (l : List Char) : Option (Nat × Nat) :=
  if l.isEmpty then none else parseIPv6 (stripCR l)

/-- The stream of canonical keys produced by the ingest phase from the input
lines (line 254: only successfully parsed lines contribute). -/
def keysOf (lines : List (List Char)) : List (Nat × Nat) :=
  lines.filterMap lineKey

/-- Embedding of line 256: the partition index is the top byte of the high
half, `(hi >> 56) & 0xFF`. -/
def bucketIdx (k : Nat × Nat) : Nat :=
  (k.1 >>> 56) &&& 255

/-- The strict comparison `uint128_t::operator<` (lines 19-22): first by high
half, then by low half.  `klep` is the induced reflexive total order that a
`std::sort`-sorted sequence satisfies between adjacent elements. -/
def klep (a b : Nat × Nat) : Prop :=
  a.1 < b.1 ∨ (a.1 = b.1 ∧ a.2 ≤ b.2)

instance : DecidableRel klep := fun a b => by
  unfold klep
  infer_instance

instance : IsTotal (Nat × Nat) klep :=
  ⟨by
    intro a b
    unfold klep
    omega⟩

instance : IsTrans (Nat × Nat) klep :=
  ⟨by
    intro a b c hab hbc
    unfold klep at hab hbc ⊢
    omega⟩

/-- The sorted key sequence of one partition (line 205, `std::sort` on
`operator<`): a sort producing the `klep`-sorted permutation. -/
def sortKeys (ks : List (Nat × Nat)) : List (Nat × Nat) :=
  List.insertionSort klep ks

/-- Embedding of `std::unique` over the sorted bucket (line 208): collapse
runs of adjacent equal keys. -/
def uniqueAdj : List (Nat × Nat) → List (Nat × Nat)
  | [] => []
  | [a] => [a]
  | a :: b :: rest =>
    if a = b then uniqueAdj (b :: rest) else a :: uniqueAdj (b :: rest)

/-- Embedding of the counting core of `processBucket` (lines 204-211): sort
the bucket contents, drop adjacent duplicates, count. -/
def processBucketCount (ks : List (Nat × Nat)) : Nat :=
  (uniqueAdj (sortKeys ks)).length

/-- The keys routed to partition `b` during ingest (lines 254-257). -/
def bucketContents (lines : List (List Char)) (b : Nat) : List (Nat × Nat) :=
  (keysOf lines).filter (fun k => bucketIdx k = b)

/-- Embedding of the final accumulated count (lines 34, 213, 298): the sum
over the 256 partitions of the per-partition unique counts. -/
def countUnique (lines : List (List Char)) : Nat :=
  ∑ b ∈ Finset.range 256, processBucketCount (bucketContents lines b)

/-- Embedding of `processBucket` at file granularity (lines 184-217).  The
argument is `none` when the partition file cannot be opened (early `return`
at line 188, file left in place), `some ips` for a readable file holding the
key sequence `ips`.  Result: contribution added to the global accumulator,
and whether the file was deleted. -/
def processBucketFile (file : Option (List (Nat × Nat))) : Nat × Bool :=
  match file with
  | none => (0, false)
  | some ips => if ips.length = 0 then (0, true) else (processBucketCount ips, true)

/-- Embedding of the `main` control flow for the claims about exit status
(lines 235-239, 154-157, 296-306).  `inputOk` models the input file opening,
`bucketsOk` the creation of all partition staging files, `outputOk` the final
output write.  Result: (exit status, contents written to the output file). -/
def runMain (inputOk bucketsOk outputOk : Bool) (lines : List (List Char)) :
    Nat × Option Nat :=
  if inputOk = false then (1, none)
  else if bucketsOk = false then (1, none)
  else if outputOk then (0, some (countUnique lines)) else (0, none)

/-- A file with each line of `as` repeated `k` times in a row. -/
def repEach (k : Nat) (as : List (List Char)) : List (List Char) :=
  (as.map (fun a => List.replicate k a)).flatten

/-- State of the phase-2 worker pool (lines 276-293): the shared atomic claim
counter, the number of still-running worker threads, and the partition
indices processed so far (in claim order). -/
structure Phase2State where
  counter : Nat
  active : Nat
  processed : List Nat
  deriving Repr, DecidableEq

/-- One scheduler step of phase 2: the chosen thread `tid` (ignored — all
workers run the identical loop body of lines 279-285 and keep no relevant
thread-local state, so the step effect is independent of which thread is
scheduled) performs one `fetch_add` on the shared counter; a claimed index
below 256 is processed, otherwise the thread exits its loop. -/
def p2step (_tid : Nat) (s : Phase2State) : Phase2State :=
  if s.active = 0 then s
  else if s.counter < 256 then
    { counter := s.counter + 1, active := s.active, processed := s.processed ++ [s.counter] }
  else { counter := s.counter + 1, active := s.active - 1, processed := s.processed }

/-- Run phase 2 under an arbitrary interleaving, given as the list of thread
ids in the order the scheduler lets them take a `fetch_add` turn. -/
def p2run (sched : List Nat) (s : Phase2State) : Phase2State :=
  match sched with
  | [] => s
  | t :: ts => p2run ts (p2step t s)

/-- The phase-2 initial state with `n` worker threads (line 276). -/
def p2init (n : Nat) : Phase2State :=
  { counter := 0, active := n, processed := [] }

/-- The numeric value of a hex digit character (`0` for non-digits); used only
to state properties of the running accumulation. -/
def hexD (c : Char) : Nat :=
  (hexDigitToInt c).getD 0

/-- The 16-bit group value the scanner stores for a digit run `ds`: the
`uint32_t` accumulation of the digits truncated to `uint16_t`. -/
def hv16 (ds : List Char) : Nat :=
  (ds.foldl (fun a c => (a * 16 + hexD c) % 4294967296) 0) % 65536

/-- Join groups with single `:` separators. -/
def joinColon : List (List Char) → List Char
  | [] => []
  | [g] => g
  | g :: gs => g ++ ':' :: joinColon gs

/-- Store the values `vs` at consecutive slots starting at `cp`. -/
def setSeq (parts : List Nat) (cp : Nat) : List Nat → List Nat
  | [] => parts
  | v :: vs => setSeq (parts.set cp v) (cp + 1) vs

/-- Number of (non-overlapping) occurrences of `::` in a line; used only to
state the claim about lines containing a second zero-compression marker. -/
def dcCount : List Char → Nat
  | ':' :: ':' :: rest => 1 + dcCount rest
  | _ :: rest => dcCount rest
  | [] => 0

/-- Invariant of the phase-2 state: the processed list is exactly the range
of claimed indices below 256, and once all threads have exited the counter
has passed 256. -/
def p2inv (s : Phase2State) : Prop :=
  s.processed = List.range (min s.counter 256) ∧ (s.active = 0 → 256 ≤ s.counter)


/-- The comparison of `uint128_t` is antisymmetric: mutually `klep`-related
keys are equal. -/
lemma klep_antisymm {a b : Nat × Nat} (hab : klep a b) (hba : klep b a) : a = b := by
  unfold klep at hab hba
  have h1 : a.1 = b.1 := by omega
  have h2 : a.2 = b.2 := by omega
  exact Prod.ext h1 h2

/-- `std::unique` keeps exactly the members of the list. -/
lemma uniqueAdj_mem {x : Nat × Nat} : ∀ {l : List (Nat × Nat)}, x ∈ uniqueAdj l ↔ x ∈ l
  | [] => Iff.rfl
  | [a] => Iff.rfl
  | a :: b :: rest => by
    have ih : x ∈ uniqueAdj (b :: rest) ↔ x ∈ b :: rest := uniqueAdj_mem
    by_cases hab : a = b
    · rw [uniqueAdj, if_pos hab, ih]
      subst hab
      simp
    · rw [uniqueAdj, if_neg hab, List.mem_cons, ih]
      simp

/-- On a sorted bucket, `std::unique` leaves no duplicates at all. -/
lemma uniqueAdj_nodup : ∀ {l : List (Nat × Nat)}, l.Sorted klep → (uniqueAdj l).Nodup
  | [] => fun _ => List.nodup_nil
  | [a] => fun _ => List.nodup_singleton a
  | a :: b :: rest => fun h => by
    have htail : (b :: rest).Sorted klep := h.tail
    by_cases hab : a = b
    · rw [uniqueAdj, if_pos hab]
      exact uniqueAdj_nodup htail
    · rw [uniqueAdj, if_neg hab]
      refine List.nodup_cons.mpr ⟨?_, uniqueAdj_nodup htail⟩
      intro hmem
      have hmem2 : a ∈ b :: rest := uniqueAdj_mem.mp hmem
      have hab2 : klep a b := (List.sorted_cons.mp h).1 b (List.mem_cons_self b rest)
      rcases List.mem_cons.mp hmem2 with h1 | h1
      · exact hab h1
      · have hba : klep b a := (List.sorted_cons.mp htail).1 a h1
        exact hab (klep_antisymm hab2 hba)

/-- The count computed for one bucket (sort, then adjacent-unique) is the
number of distinct keys in that bucket. -/
lemma processBucketCount_eq_dedup (ks : List (Nat × Nat)) :
    processBucketCount ks = ks.dedup.length := by
  have hs : (sortKeys ks).Sorted klep := List.sorted_insertionSort klep ks
  have hnd : (uniqueAdj (sortKeys ks)).Nodup := uniqueAdj_nodup hs
  have hmem : ∀ x, x ∈ uniqueAdj (sortKeys ks) ↔ x ∈ ks := by
    intro x
    rw [uniqueAdj_mem]
    exact (List.perm_insertionSort klep ks).mem_iff
  have hfin : (uniqueAdj (sortKeys ks)).toFinset = ks.toFinset := by
    ext x
    simp only [List.mem_toFinset]
    exact hmem x
  calc (uniqueAdj (sortKeys ks)).length
      = (uniqueAdj (sortKeys ks)).toFinset.card := (List.toFinset_card_of_nodup hnd).symm
    _ = ks.toFinset.card := by rw [hfin]
    _ = ks.dedup.length := List.card_toFinset ks

/-- Every key's partition index is below 256. -/
lemma bucketIdx_lt (k : Nat × Nat) : bucketIdx k < 256 :=
  Nat.lt_succ_of_le (Nat.and_le_right)

/-- Summing the per-partition distinct counts over the 256 partitions gives
the distinct count of the whole key multiset: partitioning by the top byte of
the high half neither double-counts nor omits a key. -/
lemma sum_buckets (ks : List (Nat × Nat)) :
    (∑ b ∈ Finset.range 256, processBucketCount (ks.filter (fun k => bucketIdx k = b)))
      = ks.dedup.length := by
  have h1 : ∀ b, processBucketCount (ks.filter (fun k => bucketIdx k = b))
      = (ks.toFinset.filter (fun k => bucketIdx k = b)).card := by
    intro b
    rw [processBucketCount_eq_dedup, ← List.card_toFinset, List.toFinset_filter]
    congr 1
    apply Finset.filter_congr
    intro x _
    simp
  have h2 : ks.toFinset.card
      = ∑ b ∈ Finset.range 256, (ks.toFinset.filter (fun k => bucketIdx k = b)).card := by
    apply Finset.card_eq_sum_card_fiberwise
    intro x _
    exact Finset.mem_range.mpr (bucketIdx_lt x)
  calc (∑ b ∈ Finset.range 256, processBucketCount (ks.filter (fun k => bucketIdx k = b)))
      = ∑ b ∈ Finset.range 256, (ks.toFinset.filter (fun k => bucketIdx k = b)).card := by
        exact Finset.sum_congr rfl (fun b _ => h1 b)
    _ = ks.toFinset.card := h2.symm
    _ = ks.dedup.length := List.card_toFinset ks

/-- The whole pipeline computes the number of distinct canonical keys among
the successfully parsed input lines. -/
lemma countUnique_eq_dedup (lines : List (List Char)) :
    countUnique lines = (keysOf lines).dedup.length :=
  sum_buckets (keysOf lines)

/-- When every line of `as` parses, the key stream has one key per line. -/
lemma length_filterMap_lineKey : ∀ (as : List (List Char)),
    (∀ a ∈ as, lineKey a ≠ none) → (as.filterMap lineKey).length = as.length
  | [], _ => rfl
  | a :: as, h => by
    obtain ⟨v, hv⟩ := Option.ne_none_iff_exists'.mp (h a (List.mem_cons_self a as))
    rw [List.filterMap_cons, hv]
    simp only [List.length_cons]
    rw [length_filterMap_lineKey as (fun x hx => h x (List.mem_cons_of_mem a hx))]

/-- Repeating every line `k ≥ 1` times does not change the set of keys. -/
lemma keysOf_repEach_toFinset (k : Nat) (hk : 1 ≤ k) (as : List (List Char)) :
    (keysOf (repEach k as)).toFinset = (as.filterMap lineKey).toFinset := by
  ext x
  simp only [List.mem_toFinset, keysOf, repEach, List.mem_filterMap, List.mem_flatten,
    List.mem_map, List.mem_replicate]
  constructor
  · rintro ⟨l, ⟨L, ⟨a, ha, rfl⟩, hlL⟩, hx⟩
    obtain ⟨-, h2⟩ := List.mem_replicate.mp hlL
    exact ⟨a, ha, h2 ▸ hx⟩
  · rintro ⟨a, ha, hx⟩
    refine ⟨a, ⟨List.replicate k a, ⟨a, ha, rfl⟩, ?_⟩, hx⟩
    exact List.mem_replicate.mpr ⟨by omega, rfl⟩

/-- Reading the slot just after a prefix `P` returns the element there. -/
lemma listGetD_at : ∀ (P Q : List Nat) (x d n : Nat), n = P.length →
    (P ++ x :: Q).getD n d = x
  | [], Q, x, d, n, hn => by subst hn; rfl
  | p :: P, Q, x, d, n, hn => by
    subst hn
    simp only [List.cons_append, List.length_cons, List.getD_cons_succ]
    exact listGetD_at P Q x d P.length rfl

/-- Writing the slot just after a prefix `P` replaces the element there. -/
lemma listSet_at : ∀ (P Q : List Nat) (x v n : Nat), n = P.length →
    (P ++ x :: Q).set n v = P ++ v :: Q
  | [], Q, x, v, n, hn => by subst hn; rfl
  | p :: P, Q, x, v, n, hn => by
    subst hn
    simp only [List.cons_append, List.length_cons, List.set_cons_succ]
    rw [listSet_at P Q x v P.length rfl]

/-- Behaviour of the `::` expansion loop on a state made of `A` (the groups
before the marker, left alone), `M` (the groups after the marker, to be
shifted), at least one zero slot, and an already-shifted suffix `S`: the loop
moves `M` past the zero block, slot by slot from the right.  This is the
aliasing-free regime, which requires a nonempty zero block. -/
lemma expandLoop_shift (z : Nat) (hz : 1 ≤ z) :
    ∀ (M A S : List Nat),
      A.length + M.length + z + S.length = 8 →
      expandLoop (A.length + M.length + S.length)
          (A ++ M ++ List.replicate z 0 ++ S) S.length M.length
        = A ++ List.replicate z 0 ++ M ++ S := by
  intro M
  induction M using List.reverseRecOn with
  | nil =>
    intro A S h
    simp [expandLoop]
  | append_singleton M' x ih =>
    intro A S h
    simp only [List.length_append, List.length_singleton] at h ⊢
    rw [show M'.length + 1 = M'.length + 1 from rfl]
    rw [expandLoop]
    have hidx1 : A.length + (M'.length + 1) + S.length - 1 - S.length = (A ++ M').length := by
      simp only [List.length_append]
      omega
    have hzz : List.replicate z (0 : Nat) = List.replicate (z - 1) 0 ++ [0] := by
      conv_lhs => rw [show z = (z - 1) + 1 by omega]
      exact List.replicate_succ' (z - 1) 0
    have hparts1 : A ++ (M' ++ [x]) ++ List.replicate z 0 ++ S
        = (A ++ M') ++ x :: (List.replicate z 0 ++ S) := by
      simp
    have hv : (A ++ (M' ++ [x]) ++ List.replicate z 0 ++ S).getD
        (A.length + (M'.length + 1) + S.length - 1 - S.length) 0 = x := by
      rw [hparts1]
      exact listGetD_at _ _ _ _ _ hidx1
    rw [hv]
    have hparts2 : A ++ (M' ++ [x]) ++ List.replicate z 0 ++ S
        = (A ++ M' ++ x :: List.replicate (z - 1) 0) ++ 0 :: S := by
      rw [hzz]
      simp
    have hidx2 : 7 - S.length = (A ++ M' ++ x :: List.replicate (z - 1) 0).length := by
      simp only [List.length_append, List.length_cons, List.length_replicate]
      omega
    rw [hparts2, listSet_at _ _ _ _ _ hidx2]
    have hparts3 : (A ++ M' ++ x :: List.replicate (z - 1) 0) ++ x :: S
        = (A ++ M') ++ x :: (List.replicate (z - 1) 0 ++ x :: S) := by
      simp
    rw [hparts3, listSet_at _ _ _ _ _ hidx1]
    have hswap : (0 : Nat) :: List.replicate (z - 1) 0 = List.replicate (z - 1) 0 ++ [0] := by
      rw [← List.replicate_succ, List.replicate_succ']
    have hparts4 : (A ++ M') ++ 0 :: (List.replicate (z - 1) 0 ++ x :: S)
        = A ++ M' ++ List.replicate z 0 ++ (x :: S) := by
      rw [hzz, ← List.cons_append, hswap]
      simp
    rw [hparts4]
    have hfin := ih A (x :: S) (by simp only [List.length_cons]; omega)
    simp only [List.length_cons] at hfin
    rw [show A.length + (M'.length + 1) + S.length
        = A.length + M'.length + (S.length + 1) from by omega]
    rw [hfin]
    simp

/-- Hex digits are not the colon character. -/
lemma hex_ne_colon {c : Char} {d : Nat} (h : hexDigitToInt c = some d) : c ≠ ':' := by
  intro hc
  subst hc
  simp [hexDigitToInt] at h

/-- Whitespace characters carry no hex digit value. -/
lemma space_not_hex {c : Char} (h : isSpaceC c = true) : hexDigitToInt c = none := by
  rcases Bool.or_eq_true_iff.mp h with h1 | h1
  · rcases Bool.or_eq_true_iff.mp h1 with h2 | h2
    · rcases Bool.or_eq_true_iff.mp h2 with h3 | h3
      · rcases Bool.or_eq_true_iff.mp h3 with h4 | h4
        · rcases Bool.or_eq_true_iff.mp h4 with h5 | h5
          · rw [of_decide_eq_true h5]
            rfl
          · rw [of_decide_eq_true h5]
            rfl
        · rw [of_decide_eq_true h4]
          rfl
      · rw [of_decide_eq_true h3]
        rfl
    · rw [of_decide_eq_true h2]
      rfl
  · rw [of_decide_eq_true h1]
    rfl

/-- Hex digits are not whitespace. -/
lemma hex_not_space {c : Char} {d : Nat} (h : hexDigitToInt c = some d) : isSpaceC c = false := by
  cases hs : isSpaceC c
  · rfl
  · rw [space_not_hex hs] at h
    exact absurd h (by simp)

/-- The scanner consumes a run of hex digits by folding them into the
`uint32_t` accumulator, setting the `has_digits` flag if the run is
nonempty. -/
lemma scanGroup_digits : ∀ (ds : List Char), (∀ c ∈ ds, (hexDigitToInt c).isSome) →
    ∀ (parts : List Nat) (cp : Nat) (dci : Option Nat) (val : Nat) (hd : Bool) (rest : List Char),
    scanGroup parts cp dci val hd (ds ++ rest)
      = scanGroup parts cp dci
          (ds.foldl (fun a c => (a * 16 + hexD c) % 4294967296) val) (hd || !ds.isEmpty) rest
  | [], _, parts, cp, dci, val, hd, rest => by simp
  | c :: ds, h, parts, cp, dci, val, hd, rest => by
    obtain ⟨d, hc⟩ := Option.isSome_iff_exists.mp (h c (List.mem_cons_self c ds))
    rw [List.cons_append]
    have step : scanGroup parts cp dci val hd (c :: (ds ++ rest))
        = scanGroup parts cp dci ((val * 16 + d) % 4294967296) true (ds ++ rest) := by
      simp only [scanGroup, hc]
    rw [step, scanGroup_digits ds (fun x hx => h x (List.mem_cons_of_mem c hx))]
    simp [hexD, hc]

/-- A scanner state that has already recorded a `::` marker rejects the line
as soon as the next `::` is reached (after the current digit run `ds`):
embedding of the check at line 99. -/
lemma scanGroup_second_marker (ds : List Char) (h : ∀ c ∈ ds, (hexDigitToInt c).isSome)
    (parts : List Nat) (cp d0 val : Nat) (hd : Bool) (rest : List Char) :
    scanGroup parts cp (some d0) val hd (ds ++ ':' :: ':' :: rest) = none := by
  rw [scanGroup_digits ds h]
  simp [scanGroup, isSpaceC]

/-- Unfolding of the scanner at end of line (loop exit at line 77/94). -/
lemma scanGroup_nil (parts : List Nat) (cp : Nat) (dci : Option Nat) (val : Nat) (hd : Bool) :
    scanGroup parts cp dci val hd []
      = some ((pushPart parts cp val hd).1, (pushPart parts cp val hd).2, dci) := rfl

/-- Unfolding of the scanner on a hex digit (inner loop, lines 82-88). -/
lemma scanGroup_digit {c : Char} {d : Nat} (hc : hexDigitToInt c = some d)
    (parts : List Nat) (cp : Nat) (dci : Option Nat) (val : Nat) (hd : Bool) (rest : List Char) :
    scanGroup parts cp dci val hd (c :: rest)
      = scanGroup parts cp dci ((val * 16 + d) % 4294967296) true rest := by
  rw [scanGroup.eq_2, hc]

/-- Unfolding of the scanner on whitespace after a group (break at line 94). -/
lemma scanGroup_space {c : Char} (hz : hexDigitToInt c = none) (hs : isSpaceC c = true)
    (parts : List Nat) (cp : Nat) (dci : Option Nat) (val : Nat) (hd : Bool) (rest : List Char) :
    scanGroup parts cp dci val hd (c :: rest)
      = some ((pushPart parts cp val hd).1, (pushPart parts cp val hd).2, dci) := by
  rw [scanGroup.eq_2, hz, hs]
  rfl

/-- Unfolding of the scanner on an invalid character (reject at line 104). -/
lemma scanGroup_other {c : Char} (hz : hexDigitToInt c = none) (hs : isSpaceC c = false)
    (hne : c ≠ ':')
    (parts : List Nat) (cp : Nat) (dci : Option Nat) (val : Nat) (hd : Bool) (rest : List Char) :
    scanGroup parts cp dci val hd (c :: rest) = none := by
  rw [scanGroup.eq_2, hz, hs]
  simp only [if_neg hne]
  rfl

/-- Unfolding of the scanner on a line-final colon (loop exit, line 77). -/
lemma scanGroup_colon_nil (parts : List Nat) (cp : Nat) (dci : Option Nat) (val : Nat)
    (hd : Bool) :
    scanGroup parts cp dci val hd [':']
      = some ((pushPart parts cp val hd).1, (pushPart parts cp val hd).2, dci) := rfl

/-- Unfolding of the scanner on a second `::` marker: rejection (line 99). -/
lemma scanGroup_marker_reject (parts : List Nat) (cp d0 val : Nat) (hd : Bool)
    (rest2 : List Char) :
    scanGroup parts cp (some d0) val hd (':' :: ':' :: rest2) = none := rfl

/-- Unfolding of the scanner on a first `::` marker (lines 98-102). -/
lemma scanGroup_marker (parts : List Nat) (cp val : Nat) (hd : Bool) (rest2 : List Char) :
    scanGroup parts cp none val hd (':' :: ':' :: rest2)
      = if (rest2.isEmpty || decide (8 ≤ (pushPart parts cp val hd).2)) = true
        then some ((pushPart parts cp val hd).1, (pushPart parts cp val hd).2,
          some (pushPart parts cp val hd).2)
        else scanGroup (pushPart parts cp val hd).1 (pushPart parts cp val hd).2
          (some (pushPart parts cp val hd).2) 0 false rest2 := rfl

/-- Unfolding of the scanner on a single group separator (lines 96-97). -/
lemma scanGroup_sep {c2 : Char} (hne : c2 ≠ ':') (parts : List Nat) (cp : Nat)
    (dci : Option Nat) (val : Nat) (hd : Bool) (rest2 : List Char) :
    scanGroup parts cp dci val hd (':' :: c2 :: rest2)
      = if 8 ≤ (pushPart parts cp val hd).2
        then some ((pushPart parts cp val hd).1, (pushPart parts cp val hd).2, dci)
        else scanGroup (pushPart parts cp val hd).1 (pushPart parts cp val hd).2 dci 0 false
          (c2 :: rest2) := by
  have base : scanGroup parts cp dci val hd (':' :: c2 :: rest2)
      = if c2 = ':'
        then (match dci with
          | some _ => none
          | none =>
            if (rest2.isEmpty || decide (8 ≤ (pushPart parts cp val hd).2)) = true
            then some ((pushPart parts cp val hd).1, (pushPart parts cp val hd).2,
              some (pushPart parts cp val hd).2)
            else scanGroup (pushPart parts cp val hd).1 (pushPart parts cp val hd).2
              (some (pushPart parts cp val hd).2) 0 false rest2)
        else if 8 ≤ (pushPart parts cp val hd).2
          then some ((pushPart parts cp val hd).1, (pushPart parts cp val hd).2, dci)
          else scanGroup (pushPart parts cp val hd).1 (pushPart parts cp val hd).2 dci 0 false
            (c2 :: rest2) := rfl
  rw [base, if_neg hne]

/-- Storing a group value keeps every slot below `2^16`: the stored value is
the accumulator reduced `% 65536`. -/
lemma pushPart_bound {parts : List Nat} {cp val : Nat} {hd : Bool}
    (h : ∀ x ∈ parts, x < 65536) : ∀ x ∈ (pushPart parts cp val hd).1, x < 65536 := by
  unfold pushPart
  split
  · intro x hx
    rcases List.mem_or_eq_of_mem_set hx with h1 | h1
    · exact h x h1
    · subst h1
      exact Nat.mod_lt _ (by norm_num)
  · exact h

/-- Scanner invariant: starting from a group array whose slots are all below
`2^16`, every slot of the array at loop exit is still below `2^16` — no group
value above `0xFFFF` is ever produced. -/
lemma scanGroup_bound (cs : List Char) (parts : List Nat) (cp : Nat) (dci : Option Nat)
    (val : Nat) (hd : Bool) :
    (∀ x ∈ parts, x < 65536) → ∀ out, scanGroup parts cp dci val hd cs = some out →
    ∀ x ∈ out.1, x < 65536 := by
  induction parts, cp, dci, val, hd, cs using scanGroup.induct with
  | case1 parts cp dci val hd =>
    intro hb out hout
    rw [scanGroup_nil] at hout
    obtain rfl := Option.some.inj hout
    exact fun x hx => pushPart_bound hb x hx
  | case2 parts cp dci val hd c2 rest2 d hc ih =>
    intro hb out hout
    rw [scanGroup_digit hc] at hout
    exact ih hb out hout
  | case3 parts cp dci val hd c2 rest2 hz hs =>
    intro hb out hout
    rw [scanGroup_space hz hs] at hout
    obtain rfl := Option.some.inj hout
    exact fun x hx => pushPart_bound hb x hx
  | case4 parts cp dci val hd h1 h2 =>
    intro hb out hout
    rw [scanGroup_colon_nil] at hout
    obtain rfl := Option.some.inj hout
    exact fun x hx => pushPart_bound hb x hx
  | case5 parts cp val hd rest2 d0 h1 h2 =>
    intro hb out hout
    rw [scanGroup_marker_reject] at hout
    exact Option.noConfusion hout
  | case6 parts cp val hd cp2 rest2 hcond h1 h2 =>
    intro hb out hout
    rw [scanGroup_marker, if_pos hcond] at hout
    obtain rfl := Option.some.inj hout
    exact fun x hx => pushPart_bound hb x hx
  | case7 parts cp val hd parts2 cp2 rest2 hcond h1 h2 ih =>
    intro hb out hout
    rw [scanGroup_marker, if_neg hcond] at hout
    exact ih (pushPart_bound hb) out hout
  | case8 parts cp dci val hd cp2 c2 rest2 hne hcp h1 h2 =>
    intro hb out hout
    rw [scanGroup_sep hne, if_pos hcp] at hout
    obtain rfl := Option.some.inj hout
    exact fun x hx => pushPart_bound hb x hx
  | case9 parts cp dci val hd parts2 cp2 c2 rest2 hne hcp h1 h2 ih =>
    intro hb out hout
    rw [scanGroup_sep hne, if_neg hcp] at hout
    exact ih (pushPart_bound hb) out hout
  | case10 parts cp dci val hd c2 rest2 hz hs hne =>
    intro hb out hout
    rw [scanGroup_other hz (eq_false_of_ne_true hs) hne] at hout
    exact Option.noConfusion hout

/-- The `uint32_t` digit accumulation, truncated to 16 bits, agrees with the
exact (unbounded) hex accumulation reduced `% 65536`: wrapping at 32 bits
never changes the low 16 bits. -/
lemma foldl_mod32_mod16 : ∀ (ds : List Char) (v1 v2 : Nat), v1 % 65536 = v2 % 65536 →
    (ds.foldl (fun a c => (a * 16 + hexD c) % 4294967296) v1) % 65536
      = (ds.foldl (fun a c => a * 16 + hexD c) v2) % 65536
  | [], v1, v2, h => h
  | c :: ds, v1, v2, h => by
    rw [List.foldl_cons, List.foldl_cons]
    apply foldl_mod32_mod16 ds
    have h32 : ((v1 * 16 + hexD c) % 4294967296) % 65536 = (v1 * 16 + hexD c) % 65536 :=
      Nat.mod_mod_of_dvd _ (by norm_num)
    rw [h32]
    omega

/-- Joining a group onto a nonempty tail inserts a single separator. -/
lemma joinColon_cons (g : List Char) (gs : List (List Char)) (h : gs ≠ []) :
    joinColon (g :: gs) = g ++ ':' :: joinColon gs := by
  cases gs with
  | nil => exact absurd rfl h
  | cons g2 gs2 => rfl

/-- A joined nonempty-group list starts with the head of its first group. -/
lemma joinColon_head (c1 : Char) (g1 : List Char) (gs : List (List Char)) :
    ∃ t, joinColon ((c1 :: g1) :: gs) = c1 :: t := by
  cases gs with
  | nil => exact ⟨g1, rfl⟩
  | cons g2 gs2 => exact ⟨g1 ++ ':' :: joinColon (g2 :: gs2), rfl⟩

/-- Taking one slot past an updated index splits off the written value. -/
lemma take_set_succ : ∀ (parts : List Nat) (cp v : Nat), cp < parts.length →
    (parts.set cp v).take (cp + 1) = parts.take cp ++ [v]
  | [], cp, v, h => by simp at h
  | p :: ps, 0, v, h => by simp
  | p :: ps, cp + 1, v, h => by
    simp only [List.set_cons_succ, List.take_succ_cons]
    rw [take_set_succ ps cp v (by simpa using h)]
    rfl

/-- Writing values at all slots from `cp` to the end replaces the suffix. -/
lemma setSeq_full : ∀ (vs : List Nat) (parts : List Nat) (cp : Nat),
    cp + vs.length = parts.length → setSeq parts cp vs = parts.take cp ++ vs
  | [], parts, cp, h => by
    simp only [List.length_nil] at h
    simp only [setSeq, List.append_nil]
    rw [List.take_of_length_le (by omega)]
  | v :: vs, parts, cp, h => by
    rw [setSeq]
    rw [setSeq_full vs (parts.set cp v) (cp + 1) (by simp only [List.length_set]; simp at h; omega)]
    rw [take_set_succ parts cp v (by simp at h; omega)]
    simp

/-- Scanning a colon-joined list of nonempty all-hex groups, starting below
eight stored groups with at least nine groups in total: the scanner stores
the first `8 - cp` group values and exits with `current_part = 8`, leaving
the rest of the line unexamined. -/
lemma scanGroup_fill : ∀ (gs : List (List Char)) (parts : List Nat) (cp : Nat)
    (dci : Option Nat),
    (∀ g ∈ gs, g ≠ [] ∧ ∀ c ∈ g, (hexDigitToInt c).isSome) →
    9 ≤ cp + gs.length → cp < 8 →
    scanGroup parts cp dci 0 false (joinColon gs)
      = some (setSeq parts cp ((gs.map hv16).take (8 - cp)), 8, dci)
  | [], parts, cp, dci, _, h9, h8 => by
    simp at h9
    omega
  | g :: gs, parts, cp, dci, hgood, h9, h8 => by
    have hgs : gs ≠ [] := by
      intro hh
      subst hh
      simp at h9
      omega
    obtain ⟨hgne, hghex⟩ := hgood g (List.mem_cons_self g gs)
    rw [joinColon_cons g gs hgs]
    rw [scanGroup_digits g hghex]
    obtain ⟨g2, gs2, rfl⟩ : ∃ g2 gs2, gs = g2 :: gs2 := by
      cases gs with
      | nil => exact absurd rfl hgs
      | cons a b => exact ⟨a, b, rfl⟩
    obtain ⟨hg2ne, hg2hex⟩ := hgood g2 (List.mem_cons_of_mem g (List.mem_cons_self g2 gs2))
    obtain ⟨c1, g1, rfl⟩ : ∃ c1 g1, g2 = c1 :: g1 := by
      cases g2 with
      | nil => exact absurd rfl hg2ne
      | cons a b => exact ⟨a, b, rfl⟩
    obtain ⟨d1, hd1⟩ := Option.isSome_iff_exists.mp
      (hg2hex c1 (List.mem_cons_self c1 g1))
    obtain ⟨t, ht⟩ := joinColon_head c1 g1 gs2
    rw [ht]
    rw [scanGroup_sep (hex_ne_colon hd1)]
    have hflag : (false || !g.isEmpty) = true := by
      cases g with
      | nil => exact absurd rfl hgne
      | cons a b => rfl
    rw [hflag]
    have hpush : pushPart parts cp (g.foldl (fun a c => (a * 16 + hexD c) % 4294967296) 0) true
        = (parts.set cp (hv16 g), cp + 1) := rfl
    rw [hpush]
    by_cases hcp7 : 8 ≤ cp + 1
    · rw [if_pos hcp7]
      have hcp : cp = 7 := by omega
      subst hcp
      rw [show 8 - 7 = 1 from rfl]
      rfl
    · rw [if_neg hcp7]
      rw [← ht]
      rw [scanGroup_fill ((c1 :: g1) :: gs2) (parts.set cp (hv16 g)) (cp + 1) dci
        (fun x hx => hgood x (List.mem_cons_of_mem g hx))
        (by simp at h9 ⊢; omega) (by omega)]
      have htake : ((g :: (c1 :: g1) :: gs2).map hv16).take (8 - cp)
          = hv16 g :: ((((c1 :: g1) :: gs2).map hv16).take (8 - (cp + 1))) := by
        rw [List.map_cons]
        rw [show 8 - cp = (8 - (cp + 1)) + 1 from by omega]
        rfl
      rw [htake]
      rfl

/-- The effect of a phase-2 scheduler step does not depend on which thread
is scheduled: all workers run the identical claim loop. -/
lemma p2step_tid_irrel (t u : Nat) (s : Phase2State) : p2step t s = p2step u s := rfl

/-- Each scheduler step preserves the phase-2 invariant. -/
lemma p2step_inv (t : Nat) (s : Phase2State) (h : p2inv s) : p2inv (p2step t s) := by
  obtain ⟨h1, h2⟩ := h
  unfold p2inv p2step
  by_cases ha : s.active = 0
  · rw [if_pos ha]
    exact ⟨h1, h2⟩
  · rw [if_neg ha]
    by_cases hc : s.counter < 256
    · rw [if_pos hc]
      refine ⟨?_, fun h0 => absurd h0 ha⟩
      simp only
      rw [h1, min_eq_left (by omega), min_eq_left (by omega), ← List.range_succ]
    · rw [if_neg hc]
      refine ⟨?_, fun _ => by show 256 ≤ s.counter + 1; omega⟩
      simp only
      rw [h1]
      congr 1
      omega

/-- Running any schedule preserves the phase-2 invariant. -/
lemma p2run_inv (sched : List Nat) (s : Phase2State) (h : p2inv s) : p2inv (p2run sched s) := by
  induction sched generalizing s with
  | nil => exact h
  | cons t ts ih => exact ih (p2step t s) (p2step_inv t s h)

/-- A file whose lines all fail to parse contributes no keys and counts 0. -/
lemma countUnique_malformed (lines : List (List Char)) (h : ∀ l ∈ lines, lineKey l = none) :
    countUnique lines = 0 := by
  rw [countUnique_eq_dedup]
  have hnil : keysOf lines = [] := List.filterMap_eq_nil_iff.mpr h
  rw [hnil]
  rfl

/-- A file of `N` lines with pairwise-distinct keys, each line repeated `k ≥ 1`
times, counts exactly `N`. -/
lemma countUnique_repEach (as : List (List Char)) (k : Nat) (hk : 1 ≤ k)
    (hsome : ∀ a ∈ as, lineKey a ≠ none) (hnd : (as.filterMap lineKey).Nodup) :
    countUnique (repEach k as) = as.length := by
  rw [countUnique_eq_dedup, ← List.card_toFinset, keysOf_repEach_toFinset k hk as,
    List.toFinset_card_of_nodup hnd]
  exact length_filterMap_lineKey as hsome

/-- The `::` expansion step and final packing on a state with `g ≤ 7` parsed
groups and the marker after the first `d` of them: the groups after the
marker move to the last slots and the freed interior slots are zero. -/
lemma finish_marker (groups : List Nat) (d : Nat) (hdg : d ≤ groups.length)
    (h7 : groups.length ≤ 7) :
    finish (some (groups ++ List.replicate (8 - groups.length) 0, groups.length, some d))
      = some (packParts (groups.take d ++ List.replicate (8 - groups.length) 0
          ++ groups.drop d)) := by
  have key := expandLoop_shift (8 - groups.length) (by omega) (groups.drop d)
    (groups.take d) [] (by
      simp only [List.length_take, List.length_drop, List.length_nil]
      omega)
  simp only [List.length_take, List.length_drop, List.length_nil, List.append_nil] at key
  rw [List.take_append_drop] at key
  rw [show d ⊓ groups.length + (groups.length - d) + 0 = groups.length from by omega] at key
  show some (packParts (expandLoop groups.length
      (groups ++ List.replicate (8 - groups.length) 0) 0 (groups.length - d)))
    = some (packParts (groups.take d ++ List.replicate (8 - groups.length) 0
        ++ groups.drop d))
  rw [key]

/-- Scanning at least nine colon-separated nonempty all-hex groups succeeds
and the key is packed from the first eight groups; the rest of the line is
ignored. -/
lemma parseIPv6_many_groups (gs : List (List Char))
    (hgood : ∀ g ∈ gs, g ≠ [] ∧ ∀ c ∈ g, (hexDigitToInt c).isSome)
    (h9 : 9 ≤ gs.length) :
    parseIPv6 (joinColon gs) = some (packParts ((gs.map hv16).take 8)) := by
  obtain ⟨g, gs2, rfl⟩ : ∃ g gs2, gs = g :: gs2 := by
    cases gs with
    | nil => simp at h9
    | cons a b => exact ⟨a, b, rfl⟩
  obtain ⟨hgne, hghex⟩ := hgood g (List.mem_cons_self g gs2)
  obtain ⟨c0, g0, rfl⟩ : ∃ c0 g0, g = c0 :: g0 := by
    cases g with
    | nil => exact absurd rfl hgne
    | cons a b => exact ⟨a, b, rfl⟩
  obtain ⟨d0, hd0⟩ := Option.isSome_iff_exists.mp (hghex c0 (List.mem_cons_self c0 g0))
  obtain ⟨t, ht⟩ := joinColon_head c0 g0 gs2
  have hscan := scanGroup_fill ((c0 :: g0) :: gs2) parts0 0 none hgood
    (by simp only [List.length_cons] at h9 ⊢; omega) (by omega)
  rw [ht] at hscan
  have hdrop : (c0 :: t).dropWhile isSpaceC = c0 :: t := by
    rw [List.dropWhile_cons]
    rw [hex_not_space hd0]
    rfl
  unfold parseIPv6
  rw [ht, hdrop]
  simp only [if_neg (hex_ne_colon hd0)]
  rw [hscan]
  have hlen : ((((c0 :: g0) :: gs2).map hv16).take 8).length = 8 := by
    simp only [List.length_take, List.length_map, List.length_cons]
    simp only [List.length_cons] at h9
    omega
  unfold finish
  rw [setSeq_full _ parts0 0 (by rw [hlen]; rfl)]
  rfl

/-- C1: the final count equals the exact number of distinct canonical keys
among the valid input lines: in general the pipeline count is the dedup
length of the key stream; an empty file yields 0; a file of only malformed
lines yields 0; a file of `N` lines with pairwise-distinct keys, each
repeated `k ≥ 1` times, yields `N`. -/
theorem c1_exact_distinct_count :
    (∀ lines : List (List Char), countUnique lines = (keysOf lines).dedup.length) ∧
    countUnique [] = 0 ∧
    (∀ lines : List (List Char), (∀ l ∈ lines, lineKey l = none) → countUnique lines = 0) ∧
    (∀ (as : List (List Char)) (k : Nat), 1 ≤ k → (∀ a ∈ as, lineKey a ≠ none) →
      (as.filterMap lineKey).Nodup → countUnique (repEach k as) = as.length) :=
  ⟨countUnique_eq_dedup, rfl, countUnique_malformed,
    fun as k hk h1 h2 => countUnique_repEach as k hk h1 h2⟩

/-- Witness for C1: two distinct addresses, each repeated twice, count 2. -/
theorem c1_witness : countUnique (repEach 2 [toL "::1", toL "fe80::1"]) = 2 := by
  have h := c1_exact_distinct_count.2.2.2 [toL "::1", toL "fe80::1"] 2 (by decide)
    (by decide) (by decide)
  simpa using h

/-- C2 counterexample: `1:2:3::4:5:6:7:8` parses with 8 groups and a `::`
marker; the claim's expansion (groups after the marker land in the last
slots, nothing freed) would give the key of `1:2:3:4:5:6:7:8`, but the code
zero-fills the five groups after the marker instead. -/
theorem c2_counterexample :
    parseIPv6 (toL "1:2:3::4:5:6:7:8") ≠ some (packParts [1, 2, 3, 4, 5, 6, 7, 8]) ∧
    parseIPv6 (toL "1:2:3::4:5:6:7:8") = some (packParts [1, 2, 3, 0, 0, 0, 0, 0]) := by
  decide

/-- C2 (amended to `g ≤ 7`): for every accepted address with a `::` marker
and `g ≤ 7` groups parsed in total, the expansion places the groups parsed
after the marker in the last slots, zero-fills the freed interior slots, and
packs big-endian; and `2001:db8::ff00:42:8329` expands to its manual
expansion. -/
theorem c2_expansion_shift :
    (∀ (groups : List Nat) (d : Nat), d ≤ groups.length → groups.length ≤ 7 →
      finish (some (groups ++ List.replicate (8 - groups.length) 0, groups.length, some d))
        = some (packParts (groups.take d ++ List.replicate (8 - groups.length) 0
            ++ groups.drop d))) ∧
    parseIPv6 (toL "2001:db8::ff00:42:8329")
      = some (packParts [0x2001, 0xdb8, 0, 0, 0, 0xff00, 0x42, 0x8329]) :=
  ⟨finish_marker, by decide⟩

/-- Witness for C2: three groups, marker after the first two. -/
theorem c2_witness :
    finish (some ([1, 2, 3] ++ List.replicate (8 - [1, 2, 3].length) 0,
        [1, 2, 3].length, some 2))
      = some (packParts ([1, 2, 3].take 2 ++ List.replicate (8 - [1, 2, 3].length) 0
          ++ [1, 2, 3].drop 2)) :=
  c2_expansion_shift.1 [1, 2, 3] 2 (by decide) (by decide)

/-- C3: the per-partition distinct counts computed by the reducer sum to the
distinct count of the whole key multiset; the partition index is a pure
function of the key and always lies below 256. -/
theorem c3_partition_sum (ks : List (Nat × Nat)) :
    (∑ b ∈ Finset.range 256, processBucketCount (ks.filter (fun k => bucketIdx k = b)))
        = ks.dedup.length ∧
    (∀ k1 k2 : Nat × Nat, k1 = k2 → bucketIdx k1 = bucketIdx k2) ∧
    (∀ k : Nat × Nat, bucketIdx k < 256) :=
  ⟨sum_buckets ks, fun _ _ h => congrArg bucketIdx h, bucketIdx_lt⟩

/-- Witness for C3: a concrete key multiset with one duplicate. -/
theorem c3_witness :
    (∑ b ∈ Finset.range 256,
        processBucketCount ([((1 : Nat), (2 : Nat)), (1, 2), (3, 4)].filter
          (fun k => bucketIdx k = b)))
      = [((1 : Nat), (2 : Nat)), (1, 2), (3, 4)].dedup.length ∧
    [((1 : Nat), (2 : Nat)), (1, 2), (3, 4)].dedup.length = 2 :=
  ⟨(c3_partition_sum [(1, 2), (1, 2), (3, 4)]).1, by decide⟩

/-- C4: the normalizer is a pure function (normalizing the same line twice
gives the same key), and the listed spellings of one address produce one
identical key. -/
theorem c4_deterministic :
    (∀ l : List Char, parseIPv6 l = parseIPv6 l) ∧
    (parseIPv6 (toL "::1") = parseIPv6 (toL "0:0:0:0:0:0:0:1")
      ∧ parseIPv6 (toL "::1") = some (0, 1)) ∧
    (parseIPv6 (toL "2001:db8::1")
        = parseIPv6 (toL "2001:0db8:0000:0000:0000:0000:0000:0001")
      ∧ parseIPv6 (toL "2001:db8::1") = some (0x20010db800000000, 1)) :=
  ⟨fun _ => rfl, by decide, by decide⟩

/-- Witness for C4: determinism instantiated at a concrete line. -/
theorem c4_witness : parseIPv6 (toL "::1") = parseIPv6 (toL "::1") :=
  c4_deterministic.1 (toL "::1")

/-- C5: the scanner folds each digit by shifting the 32-bit accumulator left
4 bits; the stored 16-bit group value is the exact running accumulation
reduced `% 2^16`; no slot above `0xFFFF` is ever produced; and a group of
more than four significant hex digits (`12345`) is not rejected — it wraps
into its low 16 bits (`0x2345`). -/
theorem c5_group_truncation :
    (∀ ds : List Char, (∀ c ∈ ds, (hexDigitToInt c).isSome) →
      ∀ (parts : List Nat) (cp : Nat) (dci : Option Nat) (val : Nat) (hd : Bool)
        (rest : List Char),
      scanGroup parts cp dci val hd (ds ++ rest)
        = scanGroup parts cp dci
            (ds.foldl (fun a c => (a * 16 + hexD c) % 4294967296) val)
            (hd || !ds.isEmpty) rest) ∧
    (∀ (ds : List Char) (v1 v2 : Nat), v1 % 65536 = v2 % 65536 →
      (ds.foldl (fun a c => (a * 16 + hexD c) % 4294967296) v1) % 65536
        = (ds.foldl (fun a c => a * 16 + hexD c) v2) % 65536) ∧
    (∀ (cs : List Char) (parts : List Nat) (cp : Nat) (dci : Option Nat) (val : Nat)
      (hd : Bool), (∀ x ∈ parts, x < 65536) →
      ∀ out, scanGroup parts cp dci val hd cs = some out → ∀ x ∈ out.1, x < 65536) ∧
    parseIPv6 (toL "12345:0:0:0:0:0:0:1")
      = some (packParts [0x2345, 0, 0, 0, 0, 0, 0, 1]) :=
  ⟨scanGroup_digits, foldl_mod32_mod16, scanGroup_bound, by decide⟩

/-- Witness for C5: a concrete digit run, the truncation identity on a
five-digit group, and the bound at a concrete scan. -/
theorem c5_witness :
    scanGroup parts0 0 none 0 false (toL "ab" ++ [':'])
      = scanGroup parts0 0 none
          ((toL "ab").foldl (fun a c => (a * 16 + hexD c) % 4294967296) 0)
          (false || !(toL "ab").isEmpty) [':'] ∧
    ((toL "fffff").foldl (fun a c => (a * 16 + hexD c) % 4294967296) 0) % 65536
      = ((toL "fffff").foldl (fun a c => a * 16 + hexD c) 0) % 65536 :=
  ⟨c5_group_truncation.1 (toL "ab") (by decide) parts0 0 none 0 false [':'],
   c5_group_truncation.2.1 (toL "fffff") 0 0 rfl⟩

/-- C6 counterexample: `1::2:3:4:5:6:7:8:9::` contains a second `::` (two
occurrences in the line), yet the parser accepts it: scanning stops once
eight groups are stored, so the trailing `::` is never examined. -/
theorem c6_counterexample :
    dcCount (toL "1::2:3:4:5:6:7:8:9::") = 2 ∧
    parseIPv6 (toL "1::2:3:4:5:6:7:8:9::") ≠ none := by
  decide

/-- C6 (amended): a second `::` is rejected when the scanner reaches it —
from any scanner state with a recorded marker, a digit run followed by `::`
returns the rejection signal — and full lines whose second `::` lies within
the scanned prefix are rejected. -/
theorem c6_second_marker :
    (∀ ds : List Char, (∀ c ∈ ds, (hexDigitToInt c).isSome) →
      ∀ (parts : List Nat) (cp d0 val : Nat) (hd : Bool) (rest : List Char),
      scanGroup parts cp (some d0) val hd (ds ++ ':' :: ':' :: rest) = none) ∧
    parseIPv6 (toL "1::2::3") = none ∧ parseIPv6 (toL "::1::2") = none :=
  ⟨scanGroup_second_marker, by decide, by decide⟩

/-- Witness for C6: the rejection instantiated at a concrete state. -/
theorem c6_witness :
    scanGroup parts0 0 (some 0) 0 false (toL "1" ++ ':' :: ':' :: []) = none :=
  c6_second_marker.1 (toL "1") (by decide) parts0 0 0 0 false []

/-- C7: a failed input open or a failed partition-file creation exits with
status 1 before any count; a failed output write still exits with status 0
and writes nothing; a successful run exits 0 and writes the count. -/
theorem c7_exit_status :
    (∀ (bOk oOk : Bool) (lines : List (List Char)), runMain false bOk oOk lines = (1, none)) ∧
    (∀ (oOk : Bool) (lines : List (List Char)), runMain true false oOk lines = (1, none)) ∧
    (∀ lines : List (List Char), runMain true true false lines = (0, none)) ∧
    (∀ lines : List (List Char),
      runMain true true true lines = (0, some (countUnique lines))) :=
  ⟨fun _ _ _ => rfl, fun _ _ => rfl, fun _ => rfl, fun _ => rfl⟩

/-- Witness for C7: the exit statuses at concrete flag settings. -/
theorem c7_witness :
    runMain false true true [] = (1, none) ∧ runMain true true false [] = (0, none) :=
  ⟨c7_exit_status.1 true true [], c7_exit_status.2.2.1 []⟩

/-- C8: an empty partition contributes 0 and its file is deleted without its
contents being read; a missing/unreadable partition file contributes 0 (and
is left alone) instead of being a fatal error. -/
theorem c8_empty_and_missing :
    processBucketFile (some []) = (0, true) ∧ processBucketFile none = (0, false) := by
  decide

/-- C9: a line of nine or more colon-separated nonempty hex groups with no
`::` marker is accepted, and its key packs the first eight groups, ignoring
the rest of the line; in particular `1:2:3:4:5:6:7:8:9`. -/
theorem c9_nine_groups :
    (∀ gs : List (List Char), (∀ g ∈ gs, g ≠ [] ∧ ∀ c ∈ g, (hexDigitToInt c).isSome) →
      9 ≤ gs.length → parseIPv6 (joinColon gs) = some (packParts ((gs.map hv16).take 8))) ∧
    parseIPv6 (toL "1:2:3:4:5:6:7:8:9") = some (packParts [1, 2, 3, 4, 5, 6, 7, 8]) :=
  ⟨parseIPv6_many_groups, by decide⟩

/-- Witness for C9: the nine-group line built from singleton digit groups. -/
theorem c9_witness :
    parseIPv6 (joinColon [['1'], ['2'], ['3'], ['4'], ['5'], ['6'], ['7'], ['8'], ['9']])
      = some (packParts (([['1'], ['2'], ['3'], ['4'], ['5'], ['6'], ['7'], ['8'],
          ['9']].map hv16).take 8)) :=
  c9_nine_groups.1 [['1'], ['2'], ['3'], ['4'], ['5'], ['6'], ['7'], ['8'], ['9']]
    (by decide) (by decide)

/-- C10: the phase-2 step is independent of which worker thread is
scheduled, and under every interleaving in which all workers have exited,
the multiset of processed partition indices is exactly `0..255` in claim
order — each partition claimed exactly once, none skipped. -/
theorem c10_exactly_once :
    (∀ (t u : Nat) (s : Phase2State), p2step t s = p2step u s) ∧
    (∀ (sched : List Nat) (n : Nat), 1 ≤ n →
      (p2run sched (p2init n)).active = 0 →
      (p2run sched (p2init n)).processed = List.range 256) := by
  refine ⟨p2step_tid_irrel, ?_⟩
  intro sched n hn hact
  have hinv : p2inv (p2run sched (p2init n)) := by
    apply p2run_inv
    refine ⟨rfl, fun h0 => absurd (show n = 0 from h0) (by omega)⟩
  obtain ⟨h1, h2⟩ := hinv
  rw [h1, min_eq_right (h2 hact)]

/-- Witness for C10: one worker claiming all 256 partitions plus the final
overshooting claim. -/
theorem c10_witness :
    (p2run (List.replicate 257 0) (p2init 1)).active = 0 ∧
    (p2run (List.replicate 257 0) (p2init 1)).processed = List.range 256 :=
  ⟨by decide, c10_exactly_once.2 (List.replicate 257 0) 1 (by decide) (by decide)⟩
